import Mathlib

/-!
Shallow embedding of the grouped-GEMM verification harness
(`torchtitan/experiments/kernels/triton_mg_group_gemm/fast_debug.py`).

Tensors are embedded as lists of rows over `ℚ` (exact arithmetic stands in
for the exact real-number semantics of the reference computation); shapes
are list lengths.  Python slice reads `x[a:b]` become `(x.drop a).take (b - a)`,
slice writes `r[a:b] = y` become `r.take a ++ y ++ r.drop b` (both clamp
exactly as Python slicing does).  A second embedding over `Tensor2` carries
explicit shape metadata and an `Except` result so that the runtime shape
error raised by `torch.matmul` on mismatched inner dimensions is observable.
-/

namespace FastDebug

/-- A matrix: a list of rows of rationals. -/
abbrev Mat := List (List ℚ)

/-- Dot product of two rows (`(u * v).sum` over paired entries). -/
def dotProd (u v : List ℚ) : ℚ :=
  (List.zipWith (fun a b => a * b) u v).sum

/-- `torch.matmul(a, w.T)` for `a : (m, K)` and `w : (n, K)`:
entry `(i, j)` is the dot product of row `i` of `a` with row `j` of `w`. -/
def matmulT (a w : Mat) : Mat :=
  a.map (fun r => w.map (fun wr => dotProd r wr))

/-- Pointwise sum of two rows. -/
def addRow (u v : List ℚ) : List ℚ :=
  List.zipWith (fun a b => a + b) u v

/-- Number of columns of a (rectangular) matrix, read off its first row. -/
def colCount (m : Mat) : ℕ :=
  (m.head?.getD []).length

/-- Row-vector-times-matrix `r @ b` for `r : (n)` and `b : (n, k)`:
the linear combination `Σ_j r j • b j` of the rows of `b`. -/
def vecMat (r : List ℚ) (b : Mat) : List ℚ :=
  (List.zipWith (fun c row => row.map (fun v => c * v)) r b).foldr addRow
    (List.replicate (colCount b) 0)

/-- `torch.matmul(a, b)` for `a : (m, n)` and `b : (n, k)`:
row `i` of the result is `(a i) @ b`. -/
def matmul (a b : Mat) : Mat :=
  a.map (fun r => vecMat r b)

/-- Pointwise sum of two matrices. -/
def addMat (a b : Mat) : Mat :=
  List.zipWith addRow a b

/-- Outer product of two rows: entry `(j, k)` is `u j * v k`. -/
def outer (u v : List ℚ) : Mat :=
  u.map (fun a => v.map (fun b => a * b))

/-- Adds `gᵀ @ x` to `acc`, computed as the sum over paired rows `i`
of the outer products `outer (g i) (x i)` — entry `(j, k)` of `gᵀ @ x`
is `Σ_i g i j * x i k`. -/
def matTmulAdd (acc : Mat) (g x : Mat) : Mat :=
  (List.zipWith outer g x).foldl addMat acc

/-- `torch.zeros((m, n))`. -/
def zeroMat (m n : ℕ) : Mat :=
  List.replicate m (List.replicate n 0)

/-- `torch.zeros_like(a)` (the shape of the gradient of `a` under autograd). -/
def zerosLike (a : Mat) : Mat :=
  a.map (fun r => r.map (fun _ => 0))

/-- Python slice `m[s : s + n]` (clamping, like Python slicing). -/
def groupSlice (m : Mat) (s n : ℕ) : Mat :=
  (m.drop s).take n

/-- Prefix-sum boundary of group `g`: the sum of the first `g` group sizes
(each clamped at zero like `Int.toNat`). -/
def sizesOffset (sizes : List ℤ) (g : ℕ) : ℕ :=
  ((sizes.take g).map Int.toNat).sum

/-- `m` is an `r × c` matrix: `r` rows, each of length `c`. -/
def HasShape (m : Mat) (r c : ℕ) : Prop :=
  m.length = r ∧ ∀ row ∈ m, row.length = c

/-- The loop of `compute_reference_forward`: for each group size `s` in turn,
if `s > 0`, write `x[m_start : m_start + s] @ w.T` into rows
`[m_start, m_start + s)` of the accumulator and advance `m_start`
(the advance happens inside the `if`, exactly as in the source). -/
def fwdLoop (x w : Mat) : List ℤ → ℕ → Mat → Mat
  | [], _, res => res
  | s :: rest, mStart, res =>
    if 0 < s then
      fwdLoop x w rest (mStart + s.toNat)
        (res.take mStart ++ matmulT ((x.drop mStart).take s.toNat) w
          ++ res.drop (mStart + s.toNat))
    else fwdLoop x w rest mStart res

/-- `compute_reference_forward(x, w, m_sizes)`: starts from
`torch.zeros((x.shape[0], w.shape[0]))` and runs the per-group loop. -/
def compute_reference_forward (x w : Mat) (sizes : List ℤ) : Mat :=
  fwdLoop x w sizes 0 (zeroMat x.length w.length)

/-- The loop underlying `compute_reference_backward`: the derivative, produced
by `torch.autograd`, of the (linear) forward loop.  For each group size
`s > 0` the forward writes `y_g = x[m_start:m_end] @ w.T` into the output
rows `[m_start, m_end)`; backpropagating `grad_output` through this
assignment contributes `grad_output[m_start:m_end] @ w` to the rows
`[m_start, m_end)` of `grad_x` (rows of `x` never read keep the zero
gradient) and adds `grad_output[m_start:m_end]ᵀ @ x[m_start:m_end]` to the
accumulated `grad_w`.  Skipped (non-positive) group sizes contribute
nothing, exactly as in the forward loop. -/
def bwdLoop (x w gradOut : Mat) : List ℤ → ℕ → Mat → Mat → Mat × Mat
  | [], _, gradX, gradW => (gradX, gradW)
  | s :: rest, mStart, gradX, gradW =>
    if 0 < s then
      bwdLoop x w gradOut rest (mStart + s.toNat)
        (gradX.take mStart ++ matmul ((gradOut.drop mStart).take s.toNat) w
          ++ gradX.drop (mStart + s.toNat))
        (matTmulAdd gradW ((gradOut.drop mStart).take s.toNat)
          ((x.drop mStart).take s.toNat))
    else bwdLoop x w gradOut rest mStart gradX gradW

/-- The runtime error `output.backward(grad_output)` raises when the output
tensor does not require grad: `RuntimeError: element 0 of tensors does not
require grad and does not have a grad_fn`. -/
inductive AutogradError
  | noGradFn
deriving DecidableEq

/-- `compute_reference_backward(x, w, m_sizes, grad_output)`: the forward is
recomputed on grad-requiring copies of `x` and `w` and backpropagated.  The
output buffer starts as `torch.zeros(...)` (`requires_grad=False`) and
acquires a `grad_fn` only through the in-place slice writes, i.e. exactly
when some group size is positive; with no positive group size
`output.backward(grad_output)` raises the no-`grad_fn` `RuntimeError`.
Otherwise the gradients are those of the (linear) forward, starting from the
zero-initialised gradient buffers `torch.autograd` attaches to the leaves. -/
def compute_reference_backward (x w : Mat) (sizes : List ℤ) (gradOut : Mat) :
    Except AutogradError (Mat × Mat) :=
  if sizes.any (fun s => decide (0 < s)) then
    .ok (bwdLoop x w gradOut sizes 0 (zerosLike x) (zerosLike w))
  else .error .noGradFn

/-- Specification formula for the weight gradient (from the spec text):
the sum over groups `g`, at prefix-sum boundaries `[s, e)`, of
`grad_Y[s:e]ᵀ @ X[s:e]`, accumulated into `acc`. -/
def gradWSumFrom (x gradOut : Mat) : List ℤ → ℕ → Mat → Mat
  | [], _, acc => acc
  | s :: rest, off, acc =>
    gradWSumFrom x gradOut rest (off + s.toNat)
      (matTmulAdd acc (groupSlice gradOut off s.toNat) (groupSlice x off s.toNat))

/-- The only runtime error the reference forward can raise: the shape error
`torch.matmul` throws when the inner dimensions of its operands disagree. -/
inductive GemmError
  | shapeMismatch
deriving DecidableEq

/-- A rank-2 tensor with the explicit shape metadata a torch tensor carries
(shape checks read the metadata, not the data). -/
structure Tensor2 where
  nrows : ℕ
  ncols : ℕ
  data : Mat
deriving DecidableEq

/-- The forward loop with the runtime shape check of `torch.matmul` made
explicit: `torch.matmul(x_g, w.T)` for `x_g : (m, K₁)` and `w.T : (K₂, N)`
raises when `K₁ ≠ K₂`, and is reached only for a group size `s > 0`. -/
def fwdLoopE (xcols wcols : ℕ) (x w : Mat) :
    List ℤ → ℕ → Mat → Except GemmError Mat
  | [], _, res => .ok res
  | s :: rest, mStart, res =>
    if 0 < s then
      if xcols = wcols then
        fwdLoopE xcols wcols x w rest (mStart + s.toNat)
          (res.take mStart ++ matmulT ((x.drop mStart).take s.toNat) w
            ++ res.drop (mStart + s.toNat))
      else .error .shapeMismatch
    else fwdLoopE xcols wcols x w rest mStart res

/-- `compute_reference_forward` on shape-carrying tensors: the result buffer
is `torch.zeros((x.shape[0], w.shape[0]))`, and each `torch.matmul` call can
raise `shapeMismatch`.  Note the source performs no validation at all of the
group sizes against `x.shape[0]`. -/
def forwardE (x w : Tensor2) (sizes : List ℤ) : Except GemmError Tensor2 :=
  (fwdLoopE x.ncols w.ncols x.data w.data sizes 0
      (zeroMat x.nrows w.nrows)).map
    (fun d => Tensor2.mk x.nrows w.nrows d)

/-- `torch.isnan` on the exact-arithmetic embedding: a rational always
represents a finite value, so no entry is NaN. -/
def isnanQ (_ : ℚ) : Bool :=
  false

/-- `torch.allclose(actual, expected, rtol, atol)` on flattened same-shape
tensors: every paired entry satisfies `|a - e| ≤ atol + rtol * |e|`. -/
def allclose (rtol atol : ℚ) (actual expected : List ℚ) : Bool :=
  (List.zipWith (fun a e => decide (|a - e| ≤ atol + rtol * |e|))
    actual expected).all id

/-- `(actual - expected).abs()`, flattened. -/
def absDiffs (actual expected : List ℚ) : List ℚ :=
  List.zipWith (fun a e => |a - e|) actual expected

/-- `diff.max().item()`: the entries are absolute values, so folding `max`
from `0` is the maximum of a non-empty tensor. -/
def maxAbsDiff (actual expected : List ℚ) : ℚ :=
  (absDiffs actual expected).foldr max 0

/-- `diff.argmax().item()`: flat index of the first entry attaining the
maximum difference. -/
def argmaxAbsDiff (actual expected : List ℚ) : ℕ :=
  (absDiffs actual expected).findIdx
    (fun v => decide (maxAbsDiff actual expected ≤ v))

/-- What one call of `analyze_tensor_differences` returns and logs: the
largest difference and its flat location are logged on every call; the
zero counts only in the failure branch; the NaN count only in the failure
branch and only when it is positive. -/
structure AnalysisReport where
  maxDiffVal : ℚ
  maxDiffLoc : ℕ
  isClose : Bool
  zeroCounts : Option (ℕ × ℕ)
  nanCount : Option ℕ
deriving DecidableEq

/-- `analyze_tensor_differences(actual, expected, name)` with
`rtol = atol = 0.5`, on flattened same-shape tensors (the logging `name` tag
is immaterial and dropped). -/
def analyze_tensor_differences (actual expected : List ℚ) : AnalysisReport :=
  let isClose := allclose (1/2) (1/2) actual expected
  let nanActual := (actual.filter isnanQ).length
  { maxDiffVal := maxAbsDiff actual expected
    maxDiffLoc := argmaxAbsDiff actual expected
    isClose := isClose
    zeroCounts :=
      if isClose then none
      else some ((actual.filter (fun v => decide (v = 0))).length,
        (expected.filter (fun v => decide (v = 0))).length)
    nanCount :=
      if isClose then none
      else if 0 < nanActual then some nanActual else none }

/-- Outcome of the body of one configuration test in
`test_multiple_deepseek_configs`, abstracted as an oracle: the kernels under
test (`grouped_gemm_forward` and `grouped_gemm_backward`, imported from
`mg_grouped_gemm`) and the random inputs are external, so a configuration
either completes with the two comparison verdicts or raises. -/
inductive ConfigOutcome
  | ok (forwardClose backwardClose : Bool)
  | exn
deriving DecidableEq

/-- One iteration of the sweep loop: a completed run appends
`(idx+1, forward and backward, forward, backward)`; a raised exception is
caught and `(idx+1, False, False, False)` is appended instead. -/
def runConfig (idx : ℕ) : ConfigOutcome → ℕ × Bool × Bool × Bool
  | .ok f b => (idx + 1, f && b, f, b)
  | .exn => (idx + 1, false, false, false)

/-- The `results` list accumulated by the sweep loop of
`test_multiple_deepseek_configs`, one record per configuration in order. -/
def sweepFrom (idx : ℕ) : List ConfigOutcome → List (ℕ × Bool × Bool × Bool)
  | [] => []
  | o :: rest => runConfig idx o :: sweepFrom (idx + 1) rest

/-- Return value of `test_multiple_deepseek_configs`:
`all(overall_success for ...)` over the accumulated records. -/
def test_multiple_deepseek_configs (outcomes : List ConfigOutcome) : Bool :=
  (sweepFrom 0 outcomes).all (fun r => r.2.1)

end FastDebug

namespace FastDebug

theorem sum_toNat_eq (sizes : List ℤ) (h : ∀ s ∈ sizes, 0 ≤ s) :
    (((sizes.map Int.toNat).sum : ℕ) : ℤ) = sizes.sum := by
  induction sizes with
  | nil => simp
  | cons a l ih =>
    simp only [List.map_cons, List.sum_cons, Nat.cast_add]
    rw [ih (fun s hs => h s (List.mem_cons_of_mem a hs))]
    rw [Int.toNat_of_nonneg (h a (List.mem_cons_self a l))]

theorem matmulT_append (a b w : Mat) :
    matmulT (a ++ b) w = matmulT a w ++ matmulT b w :=
  List.map_append _ a b

theorem length_matmulT (a w : Mat) : (matmulT a w).length = a.length :=
  List.length_map a _

/-- Core invariant of the forward loop: if the remaining group sizes are
non-negative and fill the rows from `mStart` to the end, the loop leaves the
first `mStart` rows of the accumulator untouched and overwrites the rest
with the corresponding rows of `x @ w.T`. -/
theorem fwdLoop_eq (x w : Mat) (sizes : List ℤ) :
    ∀ (mStart : ℕ) (res : Mat), (∀ s ∈ sizes, 0 ≤ s) →
    res.length = x.length →
    mStart + ((sizes.map Int.toNat).sum) = x.length →
    fwdLoop x w sizes mStart res = res.take mStart ++ matmulT (x.drop mStart) w := by
  induction sizes with
  | nil =>
    intro mStart res _ hlen hsum
    simp only [List.map_nil, List.sum_nil, Nat.add_zero] at hsum
    simp only [fwdLoop]
    rw [hsum] at *
    rw [List.drop_eq_nil_of_le (le_refl x.length),
      List.take_of_length_le (le_of_eq hlen)]
    simp [matmulT]
  | cons s rest ih =>
    intro mStart res hnn hlen hsum
    simp only [List.map_cons, List.sum_cons] at hsum
    by_cases hs : 0 < s
    · simp only [fwdLoop, if_pos hs]
      have hrest : ∀ t ∈ rest, 0 ≤ t := fun t ht => hnn t (List.mem_cons_of_mem s ht)
      have hmEnd : mStart + s.toNat + (rest.map Int.toNat).sum = x.length := by
        omega
      have hmEnd_le : mStart + s.toNat ≤ x.length := by omega
      have hmStart_le : mStart ≤ x.length := by omega
      set yg := matmulT ((x.drop mStart).take s.toNat) w with hyg
      have hyg_len : yg.length = s.toNat := by
        rw [hyg, length_matmulT, List.length_take, List.length_drop]
        omega
      have hres' :
          (res.take mStart ++ yg ++ res.drop (mStart + s.toNat)).length = x.length := by
        simp only [List.length_append, List.length_take, List.length_drop, hyg_len, hlen]
        omega
      rw [ih (mStart + s.toNat) _ hrest hres' hmEnd]
      have hlen2 : (res.take mStart ++ yg).length = mStart + s.toNat := by
        simp only [List.length_append, List.length_take, hyg_len, hlen]
        omega
      rw [List.take_left' hlen2]
      have hsplit : x.drop mStart
          = (x.drop mStart).take s.toNat ++ x.drop (mStart + s.toNat) := by
        conv_lhs => rw [← List.take_append_drop s.toNat (x.drop mStart)]
        rw [List.drop_drop, Nat.add_comm]
      rw [List.append_assoc]
      conv_rhs => rw [hsplit, matmulT_append]
    · simp only [fwdLoop, if_neg hs]
      have hs0 : s = 0 := le_antisymm (not_lt.mp hs) (hnn s (List.mem_cons_self s rest))
      have hrest : ∀ t ∈ rest, 0 ≤ t := fun t ht => hnn t (List.mem_cons_of_mem s ht)
      apply ih mStart res hrest hlen
      rw [hs0] at hsum
      simpa using hsum

/-- The reference forward on a non-negative grouping that covers all rows is
exactly the full matrix product `x @ w.T`, independent of the grouping. -/
theorem forward_eq_matmulT (x w : Mat) (sizes : List ℤ)
    (hnn : ∀ s ∈ sizes, 0 ≤ s) (hsum : sizes.sum = (x.length : ℤ)) :
    compute_reference_forward x w sizes = matmulT x w := by
  have hsum' : (0 : ℕ) + (sizes.map Int.toNat).sum = x.length := by
    have := sum_toNat_eq sizes hnn
    omega
  unfold compute_reference_forward
  rw [fwdLoop_eq x w sizes 0 (zeroMat x.length w.length) hnn (by simp [zeroMat]) hsum']
  simp

theorem groupSlice_matmulT (x w : Mat) (s n : ℕ) :
    groupSlice (matmulT x w) s n = matmulT (groupSlice x s n) w := by
  simp [groupSlice, matmulT, List.map_take, List.map_drop]

theorem row_length_matmulT (x w : Mat) :
    ∀ row ∈ matmulT x w, row.length = w.length := by
  intro row hrow
  rcases List.mem_map.mp hrow with ⟨r, _, hr⟩
  rw [← hr]
  exact List.length_map w _

theorem sum_filter_ne_zero (l : List ℤ) :
    (l.filter (fun s => decide (s ≠ 0))).sum = l.sum := by
  induction l with
  | nil => simp
  | cons a l ih =>
    rw [List.filter_cons]
    by_cases h : a = 0
    · rw [if_neg (by simp [h]), ih, h, List.sum_cons, zero_add]
    · rw [if_pos (by simp [h]), List.sum_cons, List.sum_cons, ih]

/-- C1: on non-negative group sizes that sum to the row count of `X`, the
reference forward produces a matrix of shape `(M, N)` whose row slice at each
prefix-sum group boundary `[s, e)` equals `X[s:e] @ W.T` exactly. -/
theorem forward_group_slices (x w : Mat) (sizes : List ℤ)
    (hnn : ∀ s ∈ sizes, 0 ≤ s) (hsum : sizes.sum = (x.length : ℤ)) :
    (compute_reference_forward x w sizes).length = x.length ∧
    (∀ row ∈ compute_reference_forward x w sizes, row.length = w.length) ∧
    ∀ g (hg : g < sizes.length),
      groupSlice (compute_reference_forward x w sizes) (sizesOffset sizes g)
          (sizes.get ⟨g, hg⟩).toNat
        = matmulT (groupSlice x (sizesOffset sizes g) (sizes.get ⟨g, hg⟩).toNat) w := by
  rw [forward_eq_matmulT x w sizes hnn hsum]
  refine ⟨length_matmulT x w, row_length_matmulT x w, ?_⟩
  intro g hg
  exact groupSlice_matmulT x w _ _

/-- Witness for C1 at `X = [[1,2],[3,4]]`, `W = [[1,0],[0,1]]`, sizes `[1,1]`:
the second group's row slice of the output equals the second row slice of
`X @ W.T`. -/
theorem forward_group_slices_witness :
    groupSlice
        (compute_reference_forward [[1,2],[3,4]] [[1,0],[0,1]] [1,1])
        (sizesOffset [1,1] 1) 1
      = matmulT (groupSlice [[1,2],[3,4]] (sizesOffset [1,1] 1) 1) [[1,0],[0,1]] := by
  have h := forward_group_slices [[1,2],[3,4]] [[1,0],[0,1]] [1,1]
    (by decide) (by decide)
  exact h.2.2 1 (by decide)

/-- C3: when the group-size vector contains a zero, removing exactly the zero
entries leaves the reference forward output unchanged on every row. -/
theorem forward_remove_zero_groups (x w : Mat) (sizes : List ℤ)
    (hnn : ∀ s ∈ sizes, 0 ≤ s) (hsum : sizes.sum = (x.length : ℤ))
    (hzero : (0 : ℤ) ∈ sizes) :
    compute_reference_forward x w sizes
      = compute_reference_forward x w (sizes.filter (fun s => decide (s ≠ 0))) := by
  rw [forward_eq_matmulT x w sizes hnn hsum,
    forward_eq_matmulT x w (sizes.filter (fun s => decide (s ≠ 0)))
      (fun s hs => hnn s (List.mem_of_mem_filter hs))
      (by rw [sum_filter_ne_zero]; exact hsum)]

/-- Witness for C3 at `X = [[1,2],[3,4]]`, `W = [[1,0],[0,1]]`,
sizes `[1,0,1]`: dropping the zero entry gives the same output. -/
theorem forward_remove_zero_groups_witness :
    compute_reference_forward [[1,2],[3,4]] [[1,0],[0,1]] [1,0,1]
      = compute_reference_forward [[1,2],[3,4]] [[1,0],[0,1]]
          (([1,0,1] : List ℤ).filter (fun s => decide (s ≠ 0))) :=
  forward_remove_zero_groups [[1,2],[3,4]] [[1,0],[0,1]] [1,0,1]
    (by decide) (by decide) (by decide)

/-- C4: with a single group of size `M = rows(X)`, the reference forward is
exactly the plain full matrix product `X @ W.T`. -/
theorem forward_single_group (x w : Mat) :
    compute_reference_forward x w [(x.length : ℤ)] = matmulT x w :=
  forward_eq_matmulT x w [(x.length : ℤ)]
    (by intro s hs; rw [List.mem_singleton] at hs; rw [hs]; exact Int.natCast_nonneg _)
    (by simp)

/-- C5: on valid inputs (at least one group, non-negative sizes summing to
`rows(X)`), the output has exactly `sum(sizes)` rows, each of length
`W.shape[0] = rows(W)`. -/
theorem forward_shape (x w : Mat) (sizes : List ℤ)
    (hG : sizes ≠ []) (hnn : ∀ s ∈ sizes, 0 ≤ s)
    (hsum : sizes.sum = (x.length : ℤ)) :
    ((compute_reference_forward x w sizes).length : ℤ) = sizes.sum ∧
    ∀ row ∈ compute_reference_forward x w sizes, row.length = w.length := by
  rw [forward_eq_matmulT x w sizes hnn hsum]
  exact ⟨by rw [length_matmulT, hsum], row_length_matmulT x w⟩

/-- Witness for C5 at `X = [[1,2],[3,4]]`, `W = [[1,0],[0,1]]`,
sizes `[2]`. -/
theorem forward_shape_witness :
    ((compute_reference_forward [[1,2],[3,4]] [[1,0],[0,1]] [2]).length : ℤ)
        = ([2] : List ℤ).sum ∧
    ∀ row ∈ compute_reference_forward [[1,2],[3,4]] [[1,0],[0,1]] [2],
      row.length = 2 :=
  forward_shape [[1,2],[3,4]] [[1,0],[0,1]] [2] (by decide) (by decide) (by decide)

theorem matmul_append (a b c : Mat) :
    matmul (a ++ b) c = matmul a c ++ matmul b c :=
  List.map_append _ a b

theorem length_matmul (a b : Mat) : (matmul a b).length = a.length :=
  List.length_map a _

theorem groupSlice_matmul (a b : Mat) (s n : ℕ) :
    groupSlice (matmul a b) s n = matmul (groupSlice a s n) b := by
  simp [groupSlice, matmul, List.map_take, List.map_drop]

theorem matTmulAdd_nil_left (acc : Mat) (x : Mat) :
    matTmulAdd acc [] x = acc := by
  simp [matTmulAdd]

/-- Accumulating `gᵀ @ x` over a row-split of `g` and `x` in two steps is the
same as accumulating over the whole matrices at once. -/
theorem matTmulAdd_append (acc : Mat) (a b c d : Mat) (h : a.length = c.length) :
    matTmulAdd (matTmulAdd acc a c) b d = matTmulAdd acc (a ++ b) (c ++ d) := by
  simp [matTmulAdd, List.zipWith_append outer a b c d h, List.foldl_append]

/-- The weight-gradient component of the backward loop is exactly the
specification sum over groups at prefix-sum boundaries — with no hypotheses
at all: a non-positive group size contributes an empty slice to both. -/
theorem bwdLoop_snd (x w gradOut : Mat) (sizes : List ℤ) :
    ∀ (mStart : ℕ) (gradX gradW : Mat),
    (bwdLoop x w gradOut sizes mStart gradX gradW).2
      = gradWSumFrom x gradOut sizes mStart gradW := by
  induction sizes with
  | nil => intro mStart gradX gradW; rfl
  | cons s rest ih =>
    intro mStart gradX gradW
    by_cases hs : 0 < s
    · simp only [bwdLoop, gradWSumFrom, if_pos hs]
      rw [ih]
      rfl
    · simp only [bwdLoop, gradWSumFrom, if_neg hs]
      rw [ih]
      have hs0 : s.toNat = 0 := Int.toNat_of_nonpos (not_lt.mp hs)
      rw [hs0]
      simp [groupSlice, matTmulAdd]

/-- On non-negative sizes that exactly cover the rows from `off` on, the
group-by-group accumulation of `grad_Y[s:e]ᵀ @ X[s:e]` collapses to a single
accumulation of `grad_Y[off:]ᵀ @ X[off:]`. -/
theorem gradWSumFrom_total (x gradOut : Mat) (hgo : gradOut.length = x.length)
    (sizes : List ℤ) :
    ∀ (off : ℕ) (acc : Mat), (∀ s ∈ sizes, 0 ≤ s) →
    off + (sizes.map Int.toNat).sum = x.length →
    gradWSumFrom x gradOut sizes off acc
      = matTmulAdd acc (gradOut.drop off) (x.drop off) := by
  induction sizes with
  | nil =>
    intro off acc _ hsum
    simp only [List.map_nil, List.sum_nil, Nat.add_zero] at hsum
    have h1 : gradOut.drop off = [] := List.drop_eq_nil_of_le (by omega)
    have h2 : x.drop off = [] := List.drop_eq_nil_of_le (by omega)
    rw [h1, h2]
    exact (matTmulAdd_nil_left acc []).symm
  | cons s rest ih =>
    intro off acc hnn hsum
    simp only [List.map_cons, List.sum_cons] at hsum
    have hrest : ∀ t ∈ rest, 0 ≤ t := fun t ht => hnn t (List.mem_cons_of_mem s ht)
    rw [gradWSumFrom, ih (off + s.toNat) _ hrest (by omega)]
    have hlenA : (groupSlice gradOut off s.toNat).length
        = (groupSlice x off s.toNat).length := by
      simp only [groupSlice, List.length_take, List.length_drop, hgo]
    rw [matTmulAdd_append _ _ _ _ _ hlenA]
    have hA : groupSlice gradOut off s.toNat ++ gradOut.drop (off + s.toNat)
        = gradOut.drop off := by
      rw [groupSlice, ← List.drop_drop, List.take_append_drop]
    have hC : groupSlice x off s.toNat ++ x.drop (off + s.toNat)
        = x.drop off := by
      rw [groupSlice, ← List.drop_drop, List.take_append_drop]
    rw [hA, hC]

/-- Core invariant of the input-gradient component of the backward loop:
analogous to `fwdLoop_eq`, with `grad_output @ w` in place of `x @ w.T`. -/
theorem bwdLoop_fst (x w gradOut : Mat) (sizes : List ℤ) :
    ∀ (mStart : ℕ) (gradX gradW : Mat), (∀ s ∈ sizes, 0 ≤ s) →
    gradX.length = gradOut.length →
    mStart + (sizes.map Int.toNat).sum = gradOut.length →
    (bwdLoop x w gradOut sizes mStart gradX gradW).1
      = gradX.take mStart ++ matmul (gradOut.drop mStart) w := by
  induction sizes with
  | nil =>
    intro mStart gradX gradW _ hlen hsum
    simp only [List.map_nil, List.sum_nil, Nat.add_zero] at hsum
    simp only [bwdLoop]
    rw [hsum] at *
    rw [List.drop_eq_nil_of_le (le_refl gradOut.length),
      List.take_of_length_le (le_of_eq hlen)]
    simp [matmul]
  | cons s rest ih =>
    intro mStart gradX gradW hnn hlen hsum
    simp only [List.map_cons, List.sum_cons] at hsum
    by_cases hs : 0 < s
    · simp only [bwdLoop, if_pos hs]
      have hrest : ∀ t ∈ rest, 0 ≤ t := fun t ht => hnn t (List.mem_cons_of_mem s ht)
      have hmEnd : mStart + s.toNat + (rest.map Int.toNat).sum = gradOut.length := by
        omega
      set yg := matmul ((gradOut.drop mStart).take s.toNat) w with hyg
      have hyg_len : yg.length = s.toNat := by
        rw [hyg, length_matmul, List.length_take, List.length_drop]
        omega
      have hres' :
          (gradX.take mStart ++ yg ++ gradX.drop (mStart + s.toNat)).length
            = gradOut.length := by
        simp only [List.length_append, List.length_take, List.length_drop,
          hyg_len, hlen]
        omega
      rw [ih (mStart + s.toNat) _ _ hrest hres' hmEnd]
      have hlen2 : (gradX.take mStart ++ yg).length = mStart + s.toNat := by
        simp only [List.length_append, List.length_take, hyg_len, hlen]
        omega
      rw [List.take_left' hlen2]
      have hsplit : gradOut.drop mStart
          = (gradOut.drop mStart).take s.toNat ++ gradOut.drop (mStart + s.toNat) := by
        conv_lhs => rw [← List.take_append_drop s.toNat (gradOut.drop mStart)]
        rw [List.drop_drop, Nat.add_comm]
      rw [List.append_assoc]
      conv_rhs => rw [hsplit, matmul_append]
    · simp only [bwdLoop, if_neg hs]
      have hs0 : s = 0 := le_antisymm (not_lt.mp hs) (hnn s (List.mem_cons_self s rest))
      have hrest : ∀ t ∈ rest, 0 ≤ t := fun t ht => hnn t (List.mem_cons_of_mem s ht)
      apply ih mStart gradX gradW hrest hlen
      rw [hs0] at hsum
      simpa using hsum

/-- The input gradient computed by the backward loop on a valid grouping is
the full product `grad_output @ w`, independent of the grouping. -/
theorem backward_fst_eq_matmul (x w gradOut : Mat) (sizes : List ℤ)
    (hnn : ∀ s ∈ sizes, 0 ≤ s) (hsum : sizes.sum = (x.length : ℤ))
    (hgo : gradOut.length = x.length) :
    (bwdLoop x w gradOut sizes 0 (zerosLike x) (zerosLike w)).1
      = matmul gradOut w := by
  have hsum' : (0 : ℕ) + (sizes.map Int.toNat).sum = gradOut.length := by
    have := sum_toNat_eq sizes hnn
    omega
  rw [bwdLoop_fst x w gradOut sizes 0 (zerosLike x) (zerosLike w) hnn
    (by simp [zerosLike, hgo]) hsum']
  simp

/-- The weight gradient computed by the backward loop is, unconditionally,
the specification sum over groups. -/
theorem backward_snd_eq (x w gradOut : Mat) (sizes : List ℤ) :
    (bwdLoop x w gradOut sizes 0 (zerosLike x) (zerosLike w)).2
      = gradWSumFrom x gradOut sizes 0 (zerosLike w) :=
  bwdLoop_snd x w gradOut sizes 0 (zerosLike x) (zerosLike w)

/-- A list of non-negative integers with positive sum has a positive
element. -/
theorem exists_pos_of_sum_pos : ∀ {sizes : List ℤ}, (∀ s ∈ sizes, 0 ≤ s) →
    0 < sizes.sum → ∃ s ∈ sizes, 0 < s := by
  intro sizes
  induction sizes with
  | nil => intro _ hsum; simp at hsum
  | cons a l ih =>
    intro hnn hsum
    by_cases ha : 0 < a
    · exact ⟨a, List.mem_cons_self a l, ha⟩
    · have ha0 : a = 0 :=
        le_antisymm (not_lt.mp ha) (hnn a (List.mem_cons_self a l))
      rw [List.sum_cons, ha0, zero_add] at hsum
      rcases ih (fun s hs => hnn s (List.mem_cons_of_mem a hs)) hsum
        with ⟨s, hs, hspos⟩
      exact ⟨s, List.mem_cons_of_mem a hs, hspos⟩

/-- With at least one positive group size the output acquires a `grad_fn`
and the backward succeeds, returning the loop's gradients. -/
theorem backward_ok_of_exists_pos (x w gradOut : Mat) (sizes : List ℤ)
    (hpos : ∃ s ∈ sizes, 0 < s) :
    compute_reference_backward x w sizes gradOut
      = .ok (bwdLoop x w gradOut sizes 0 (zerosLike x) (zerosLike w)) := by
  unfold compute_reference_backward
  rw [if_pos]
  rcases hpos with ⟨s, hs, hspos⟩
  exact List.any_eq_true.mpr ⟨s, hs, decide_eq_true hspos⟩

theorem exists_of_mem_zipWith {α β γ : Type} {f : α → β → γ} :
    ∀ {l₁ : List α} {l₂ : List β} {c : γ}, c ∈ List.zipWith f l₁ l₂ →
    ∃ a b, a ∈ l₁ ∧ b ∈ l₂ ∧ c = f a b := by
  intro l₁
  induction l₁ with
  | nil => intro l₂ c h; simp at h
  | cons a l ih =>
    intro l₂ c h
    cases l₂ with
    | nil => simp at h
    | cons b l₂ =>
      rw [List.zipWith_cons_cons] at h
      rcases List.mem_cons.mp h with h | h
      · exact ⟨a, b, List.mem_cons_self a l, List.mem_cons_self b l₂, h⟩
      · rcases ih h with ⟨a₂, b₂, ha, hb, hc⟩
        exact ⟨a₂, b₂, List.mem_cons_of_mem _ ha, List.mem_cons_of_mem _ hb, hc⟩

theorem colCount_eq {w : Mat} {K : ℕ} (hne : w ≠ [])
    (hw : ∀ r ∈ w, r.length = K) : colCount w = K := by
  cases w with
  | nil => exact absurd rfl hne
  | cons r rest =>
    simp only [colCount, List.head?_cons, Option.getD_some]
    exact hw r (List.mem_cons_self r rest)

theorem vecMat_length {w : Mat} {K : ℕ} (hne : w ≠ [])
    (hw : ∀ r ∈ w, r.length = K) (r : List ℚ) : (vecMat r w).length = K := by
  unfold vecMat
  have hinit : (List.replicate (colCount w) (0 : ℚ)).length = K := by
    rw [List.length_replicate, colCount_eq hne hw]
  generalize hL : List.zipWith (fun c row => row.map (fun v => c * v)) r w = L
  have hmem : ∀ v ∈ L, v.length = K := by
    intro v hv
    rw [← hL] at hv
    rcases exists_of_mem_zipWith hv with ⟨c, row, _, hrow, hv⟩
    rw [hv, List.length_map]
    exact hw row hrow
  clear hL
  induction L with
  | nil => exact hinit
  | cons v L ihL =>
    simp only [List.foldr_cons, addRow, List.length_zipWith]
    rw [hmem v (List.mem_cons_self v L),
      ihL (fun u hu => hmem u (List.mem_cons_of_mem v hu)), Nat.min_self]

theorem hasShape_matmul {a w : Mat} {K : ℕ} (hne : w ≠ [])
    (hw : ∀ r ∈ w, r.length = K) : HasShape (matmul a w) a.length K := by
  refine ⟨length_matmul a w, ?_⟩
  intro row hrow
  rcases List.mem_map.mp hrow with ⟨r, _, hr⟩
  rw [← hr]
  exact vecMat_length hne hw r

theorem hasShape_addMat {a b : Mat} {r c : ℕ}
    (ha : HasShape a r c) (hb : HasShape b r c) : HasShape (addMat a b) r c := by
  constructor
  · rw [addMat, List.length_zipWith, ha.1, hb.1, Nat.min_self]
  · intro row hrow
    rcases exists_of_mem_zipWith hrow with ⟨u, v, hu, hv, hrow⟩
    rw [hrow, addRow, List.length_zipWith, ha.2 u hu, hb.2 v hv, Nat.min_self]

theorem hasShape_outer {u v : List ℚ} {r c : ℕ}
    (hu : u.length = r) (hv : v.length = c) : HasShape (outer u v) r c := by
  refine ⟨by rw [outer, List.length_map, hu], ?_⟩
  intro row hrow
  rcases List.mem_map.mp hrow with ⟨a, _, ha⟩
  rw [← ha, List.length_map, hv]

theorem hasShape_matTmulAdd {acc g x : Mat} {r c : ℕ}
    (hacc : HasShape acc r c) (hg : ∀ u ∈ g, u.length = r)
    (hx : ∀ v ∈ x, v.length = c) : HasShape (matTmulAdd acc g x) r c := by
  unfold matTmulAdd
  generalize hL : List.zipWith outer g x = L
  have hmem : ∀ m ∈ L, HasShape m r c := by
    intro m hm
    rw [← hL] at hm
    rcases exists_of_mem_zipWith hm with ⟨u, v, hu, hv, hm⟩
    rw [hm]
    exact hasShape_outer (hg u hu) (hx v hv)
  clear hL
  induction L generalizing acc with
  | nil => exact hacc
  | cons m L ihL =>
    rw [List.foldl_cons]
    exact ihL (hasShape_addMat hacc (hmem m (List.mem_cons_self m L)))
      (fun u hu => hmem u (List.mem_cons_of_mem m hu))

theorem hasShape_zerosLike {w : Mat} {K : ℕ} (hw : ∀ r ∈ w, r.length = K) :
    HasShape (zerosLike w) w.length K := by
  refine ⟨List.length_map w _, ?_⟩
  intro row hrow
  rcases List.mem_map.mp hrow with ⟨r, hr, hrow⟩
  rw [← hrow, List.length_map]
  exact hw r hr

/-- C2 counterexample: at `X = [] : (0, 1)`, `W = [[1]] : (1, 1)`,
`grad_Y = [] : (0, 1)` and sizes `[0]` — non-negative sizes summing to
`M = 0` — the reference backward does not return gradients: no group writes
into the output, the output has no `grad_fn`, and `output.backward` raises. -/
theorem backward_errors_without_positive_group :
    compute_reference_backward [] [[1]] [0] [] = .error .noGradFn := by
  rfl

/-- C2 amended: on valid inputs (`X : (M, K)`, `W : (N, K)`,
`grad_Y : (M, N)`, non-negative sizes summing to `M`) with `M ≥ 1` — with
`M = 0` the backward raises the no-`grad_fn` `RuntimeError` instead of
returning — the reference backward returns `grad_X : (M, K)` and
`grad_W : (N, K)` satisfying the matmul adjoint:
`grad_X[s:e] = grad_Y[s:e] @ W` at every prefix-sum group boundary `[s, e)`,
and `grad_W` is the sum over all groups of `grad_Y[s:e]ᵀ @ X[s:e]`. -/
theorem backward_adjoint (x w gradOut : Mat) (sizes : List ℤ) (K : ℕ)
    (hnn : ∀ s ∈ sizes, 0 ≤ s) (hsum : sizes.sum = (x.length : ℤ))
    (hM : 0 < x.length) (hgo : gradOut.length = x.length)
    (hxK : ∀ r ∈ x, r.length = K) (hwK : ∀ r ∈ w, r.length = K)
    (hwne : w ≠ []) (hgN : ∀ r ∈ gradOut, r.length = w.length) :
    ∃ gX gW, compute_reference_backward x w sizes gradOut = .ok (gX, gW) ∧
    HasShape gX x.length K ∧
    HasShape gW w.length K ∧
    (∀ g (hg : g < sizes.length),
      groupSlice gX (sizesOffset sizes g) (sizes.get ⟨g, hg⟩).toNat
        = matmul
            (groupSlice gradOut (sizesOffset sizes g) (sizes.get ⟨g, hg⟩).toNat)
            w) ∧
    gW = gradWSumFrom x gradOut sizes 0 (zerosLike w) := by
  have hpos : ∃ s ∈ sizes, 0 < s :=
    exists_pos_of_sum_pos hnn (by rw [hsum]; exact_mod_cast hM)
  have hfst := backward_fst_eq_matmul x w gradOut sizes hnn hsum hgo
  have hsnd := backward_snd_eq x w gradOut sizes
  have hsum' : (0 : ℕ) + (sizes.map Int.toNat).sum = x.length := by
    have := sum_toNat_eq sizes hnn
    omega
  have htotal := gradWSumFrom_total x gradOut hgo sizes 0 (zerosLike w) hnn hsum'
  refine ⟨(bwdLoop x w gradOut sizes 0 (zerosLike x) (zerosLike w)).1,
    (bwdLoop x w gradOut sizes 0 (zerosLike x) (zerosLike w)).2,
    backward_ok_of_exists_pos x w gradOut sizes hpos, ?_, ?_, ?_, hsnd⟩
  · rw [hfst, ← hgo]
    exact hasShape_matmul hwne hwK
  · rw [hsnd, htotal, List.drop_zero, List.drop_zero]
    exact hasShape_matTmulAdd (hasShape_zerosLike hwK) hgN hxK
  · intro g hg
    rw [hfst]
    exact groupSlice_matmul gradOut w _ _

/-- Witness for the amended C2 at `X = W = grad_Y = [[1,0],[0,1]]`,
sizes `[1,1]`, `K = 2`: the backward returns gradients (no error). -/
theorem backward_adjoint_witness :
    (compute_reference_backward [[1,0],[0,1]] [[1,0],[0,1]] [1,1]
        [[1,0],[0,1]]).isOk = true := by
  rcases backward_adjoint [[1,0],[0,1]] [[1,0],[0,1]] [[1,0],[0,1]] [1,1] 2
      (by decide) (by decide) (by decide) (by decide) (by decide) (by decide)
      (by decide) (by decide)
    with ⟨gX, gW, heq, h⟩
  rw [heq]
  rfl

/-- C10 counterexample: at `X = grad_Y = [] : (0, 2)`, `W = [[1,2]]` and
sizes `[0, 0]` — a valid partition of the zero rows — the backward raises
the no-`grad_fn` `RuntimeError` rather than returning
`grad_X = grad_Y @ W` and `grad_W = grad_Yᵀ @ X`. -/
theorem backward_errors_on_all_zero_partition :
    compute_reference_backward [] [[1,2]] [0, 0] [] = .error .noGradFn := by
  rfl

/-- C10 amended: the reference results are independent of the grouping: on
any non-negative sizes summing to `rows(X)`, the forward is the full product
`X @ W.T`; and when `rows(X) ≥ 1` (with zero rows the backward raises
instead of returning) the backward returns exactly the input gradient
`grad_Y @ W` and the full weight accumulation `grad_Yᵀ @ X` — the same for
any two valid partitions. -/
theorem reference_grouping_independence (x w gradOut : Mat) (sizes : List ℤ)
    (hnn : ∀ s ∈ sizes, 0 ≤ s) (hsum : sizes.sum = (x.length : ℤ))
    (hgo : gradOut.length = x.length) :
    compute_reference_forward x w sizes = matmulT x w ∧
    (0 < x.length →
      compute_reference_backward x w sizes gradOut
        = .ok (matmul gradOut w, matTmulAdd (zerosLike w) gradOut x)) := by
  refine ⟨forward_eq_matmulT x w sizes hnn hsum, ?_⟩
  intro hM
  have hpos : ∃ s ∈ sizes, 0 < s :=
    exists_pos_of_sum_pos hnn (by rw [hsum]; exact_mod_cast hM)
  have hsum' : (0 : ℕ) + (sizes.map Int.toNat).sum = x.length := by
    have := sum_toNat_eq sizes hnn
    omega
  rw [backward_ok_of_exists_pos x w gradOut sizes hpos]
  have h1 := backward_fst_eq_matmul x w gradOut sizes hnn hsum hgo
  have h2 : (bwdLoop x w gradOut sizes 0 (zerosLike x) (zerosLike w)).2
      = matTmulAdd (zerosLike w) gradOut x := by
    rw [backward_snd_eq,
      gradWSumFrom_total x gradOut hgo sizes 0 (zerosLike w) hnn hsum',
      List.drop_zero, List.drop_zero]
  rw [← h1, ← h2]

/-- Witness for the amended C10 at `X = [[1,2],[3,4]]`,
`W = grad_Y = [[1,0],[0,1]]`, sizes `[2]`. -/
theorem reference_grouping_independence_witness :
    compute_reference_forward [[1,2],[3,4]] [[1,0],[0,1]] [2]
        = matmulT [[1,2],[3,4]] [[1,0],[0,1]] ∧
    compute_reference_backward [[1,2],[3,4]] [[1,0],[0,1]] [2] [[1,0],[0,1]]
      = .ok (matmul [[1,0],[0,1]] [[1,0],[0,1]],
          matTmulAdd (zerosLike [[1,0],[0,1]]) [[1,0],[0,1]] [[1,2],[3,4]]) := by
  have h := reference_grouping_independence [[1,2],[3,4]] [[1,0],[0,1]]
    [[1,0],[0,1]] [2] (by decide) (by decide) (by decide)
  exact ⟨h.1, h.2 (by decide)⟩

theorem fwdLoopE_error {xc wc : ℕ} (x w : Mat) (h : xc ≠ wc) :
    ∀ (sizes : List ℤ) (mStart : ℕ) (res : Mat), (∃ s ∈ sizes, 0 < s) →
    fwdLoopE xc wc x w sizes mStart res = .error .shapeMismatch := by
  intro sizes
  induction sizes with
  | nil => intro mStart res hex; simp at hex
  | cons s rest ih =>
    intro mStart res hex
    by_cases hs : 0 < s
    · simp only [fwdLoopE, if_pos hs, if_neg h]
    · simp only [fwdLoopE, if_neg hs]
      rcases hex with ⟨t, ht, hpos⟩
      rcases List.mem_cons.mp ht with rfl | ht
      · exact absurd hpos hs
      · exact ih mStart res ⟨t, ht, hpos⟩

theorem fwdLoopE_ok {xc wc : ℕ} (x w : Mat) (h : xc = wc) :
    ∀ (sizes : List ℤ) (mStart : ℕ) (res : Mat),
    ∃ y, fwdLoopE xc wc x w sizes mStart res = .ok y := by
  intro sizes
  induction sizes with
  | nil => intro mStart res; exact ⟨res, rfl⟩
  | cons s rest ih =>
    intro mStart res
    by_cases hs : 0 < s
    · simp only [fwdLoopE, if_pos hs, if_pos h]
      exact ih _ _
    · simp only [fwdLoopE, if_neg hs]
      exact ih _ _

/-- C6 counterexample: with `X : (2, 1)`, `W : (1, 1)` and sizes `[5]`, the
group sizes do not sum to the row count of `X`, the K dimensions agree, and
the reference forward raises no error at all — it silently returns a
`(2, 1)` result (Python slicing clamps the out-of-range group). -/
theorem forward_no_sum_validation :
    forwardE (Tensor2.mk 2 1 [[1],[2]]) (Tensor2.mk 1 1 [[3]]) [5]
        = .ok (Tensor2.mk 2 1 [[3],[6]]) ∧
    ([5] : List ℤ).sum ≠ ((2 : ℕ) : ℤ) := by
  constructor
  · norm_num [forwardE, fwdLoopE, matmulT, dotProd, zeroMat, Except.map]
  · decide

/-- C6 amended: the reference forward never checks the group sizes against
the row count — with agreeing K dimensions it always returns a result — while
a K-dimension disagreement raises the shape error from `torch.matmul` as soon
as a positive-size group is processed. -/
theorem forwardE_shape_behaviour (x w : Tensor2) (sizes : List ℤ) :
    (x.ncols ≠ w.ncols → (∃ s ∈ sizes, 0 < s) →
      forwardE x w sizes = .error .shapeMismatch) ∧
    (x.ncols = w.ncols → ∃ y, forwardE x w sizes = .ok y) := by
  constructor
  · intro h hex
    unfold forwardE
    rw [fwdLoopE_error x.data w.data h sizes 0 (zeroMat x.nrows w.nrows) hex]
    rfl
  · intro h
    unfold forwardE
    rcases fwdLoopE_ok x.data w.data h sizes 0 (zeroMat x.nrows w.nrows)
      with ⟨d, hd⟩
    rw [hd]
    exact ⟨Tensor2.mk x.nrows w.nrows d, rfl⟩

/-- Witness for the amended C6: a `(1, 2)` input against a `(1, 1)` weight
with a positive group errors, and a matching pair returns a result. -/
theorem forwardE_shape_behaviour_witness :
    forwardE (Tensor2.mk 1 2 [[1,2]]) (Tensor2.mk 1 1 [[3]]) [1]
        = .error .shapeMismatch ∧
    ∃ y, forwardE (Tensor2.mk 1 1 [[2]]) (Tensor2.mk 1 1 [[3]]) [1] = .ok y :=
  ⟨(forwardE_shape_behaviour (Tensor2.mk 1 2 [[1,2]]) (Tensor2.mk 1 1 [[3]])
      [1]).1 (by decide) (by decide),
   (forwardE_shape_behaviour (Tensor2.mk 1 1 [[2]]) (Tensor2.mk 1 1 [[3]])
      [1]).2 (by decide)⟩

/-- C7 counterexample: with a negative entry in the group sizes, the
reference forward raises no error of any kind — the negative group is
silently skipped and the remaining group is computed. -/
theorem forward_negative_size_no_error :
    forwardE (Tensor2.mk 1 1 [[2]]) (Tensor2.mk 1 1 [[3]]) [-1, 1]
      = .ok (Tensor2.mk 1 1 [[6]]) := by
  norm_num [forwardE, fwdLoopE, matmulT, dotProd, zeroMat, Except.map]

theorem fwdLoop_filter_pos (x w : Mat) :
    ∀ (sizes : List ℤ) (mStart : ℕ) (res : Mat),
    fwdLoop x w sizes mStart res
      = fwdLoop x w (sizes.filter (fun s => decide (0 < s))) mStart res := by
  intro sizes
  induction sizes with
  | nil => intro mStart res; rfl
  | cons s rest ih =>
    intro mStart res
    rw [List.filter_cons]
    by_cases hs : 0 < s
    · rw [if_pos (by simpa using hs)]
      simp only [fwdLoop, if_pos hs]
      exact ih _ _
    · rw [if_neg (by simpa using hs)]
      simp only [fwdLoop, if_neg hs]
      exact ih _ _

/-- C7 amended: a non-positive (in particular negative) group-size entry is
not an error: the loop skips it without advancing the row offset, so the
reference forward equals the forward on the sizes with every non-positive
entry removed. -/
theorem forward_skips_nonpositive_sizes (x w : Mat) (sizes : List ℤ) :
    compute_reference_forward x w sizes
      = compute_reference_forward x w (sizes.filter (fun s => decide (0 < s))) :=
  fwdLoop_filter_pos x w sizes 0 (zeroMat x.length w.length)

theorem foldr_max_le {L : List ℚ} {v : ℚ} (hv : v ∈ L) : v ≤ L.foldr max 0 := by
  induction L with
  | nil => simp at hv
  | cons a L ih =>
    rcases List.mem_cons.mp hv with rfl | hv
    · exact le_max_left _ _
    · exact le_trans (ih hv) (le_max_right _ _)

theorem foldr_max_mem : ∀ {L : List ℚ}, (∀ v ∈ L, 0 ≤ v) → L ≠ [] →
    L.foldr max 0 ∈ L := by
  intro L
  induction L with
  | nil => intro _ hne; exact absurd rfl hne
  | cons a L ih =>
    intro hnn _
    cases L with
    | nil =>
      simp only [List.foldr_cons, List.foldr_nil]
      rw [max_eq_left (hnn a (List.mem_cons_self a []))]
      exact List.mem_cons_self a []
    | cons b L₂ =>
      rcases le_total ((b :: L₂).foldr max 0) a with h | h
      · rw [List.foldr_cons, max_eq_left h]
        exact List.mem_cons_self a (b :: L₂)
      · rw [List.foldr_cons, max_eq_right h]
        exact List.mem_cons_of_mem a
          (ih (fun v hv => hnn v (List.mem_cons_of_mem a hv)) (by simp))

theorem length_absDiffs {actual expected : List ℚ}
    (hlen : actual.length = expected.length) :
    (absDiffs actual expected).length = actual.length := by
  rw [absDiffs, List.length_zipWith, hlen, min_self]

theorem absDiffs_nonneg {actual expected : List ℚ} :
    ∀ v ∈ absDiffs actual expected, 0 ≤ v := by
  intro v hv
  rcases exists_of_mem_zipWith hv with ⟨a, e, _, _, hv⟩
  rw [hv]
  exact abs_nonneg _

theorem allclose_iff (rtol atol : ℚ) (actual expected : List ℚ)
    (hlen : actual.length = expected.length) :
    allclose rtol atol actual expected = true ↔
    ∀ i, i < actual.length →
      |actual.getD i 0 - expected.getD i 0|
        ≤ atol + rtol * |expected.getD i 0| := by
  unfold allclose
  rw [List.all_eq_true]
  constructor
  · intro hall i h
    have h₂ : i < expected.length := hlen ▸ h
    have hz : i < (List.zipWith
        (fun a e => decide (|a - e| ≤ atol + rtol * |e|)) actual expected).length := by
      rw [List.length_zipWith, hlen, min_self]
      exact h₂
    have := hall _ (List.getElem_mem hz)
    rw [List.getElem_zipWith] at this
    rw [List.getD_eq_getElem actual 0 h, List.getD_eq_getElem expected 0 h₂]
    exact of_decide_eq_true this
  · intro hp v hv
    rcases List.mem_iff_getElem.mp hv with ⟨i, hz, hvi⟩
    have h₁ : i < actual.length := by
      rw [List.length_zipWith, hlen, min_self] at hz
      omega
    have h₂ : i < expected.length := hlen ▸ h₁
    rw [← hvi, List.getElem_zipWith]
    simp only [id_eq, decide_eq_true_eq]
    have := hp i h₁
    rwa [List.getD_eq_getElem actual 0 h₁, List.getD_eq_getElem expected 0 h₂] at this

theorem findIdx_get_pred {α : Type} {p : α → Bool} {xs : List α}
    (w : xs.findIdx p < xs.length) : p (xs.get ⟨xs.findIdx p, w⟩) = true :=
  List.findIdx_getElem

theorem absDiffs_getD {actual expected : List ℚ} {i : ℕ}
    (h₁ : i < actual.length) (h₂ : i < expected.length) :
    (absDiffs actual expected).getD i 0
      = |actual.getD i 0 - expected.getD i 0| := by
  unfold absDiffs
  have hz : i < (List.zipWith (fun a e => |a - e|) actual expected).length := by
    rw [List.length_zipWith]
    omega
  rw [List.getD_eq_getElem actual 0 h₁, List.getD_eq_getElem expected 0 h₂,
    List.getD_eq_getElem _ 0 hz, List.getElem_zipWith]

/-- C8 amended: `analyze_tensor_differences` returns True iff the tensors
match element-wise within `rtol = atol = 0.5`; the largest-magnitude
discrepancy is reported, with its value and location, on every comparison;
the zero counts are reported only when the comparison fails; and the NaN
count (identically zero in exact arithmetic) is never reported. -/
theorem analyze_tensor_differences_spec (actual expected : List ℚ)
    (hlen : actual.length = expected.length) (hne : actual ≠ []) :
    ((analyze_tensor_differences actual expected).isClose = true ↔
      ∀ i, i < actual.length →
        |actual.getD i 0 - expected.getD i 0|
          ≤ 1/2 + 1/2 * |expected.getD i 0|) ∧
    ((analyze_tensor_differences actual expected).maxDiffLoc < actual.length ∧
      (absDiffs actual expected).getD
          (analyze_tensor_differences actual expected).maxDiffLoc 0
        = (analyze_tensor_differences actual expected).maxDiffVal) ∧
    (∀ i, i < actual.length →
      |actual.getD i 0 - expected.getD i 0|
        ≤ (analyze_tensor_differences actual expected).maxDiffVal) ∧
    ((analyze_tensor_differences actual expected).isClose = true →
      (analyze_tensor_differences actual expected).zeroCounts = none) ∧
    ((analyze_tensor_differences actual expected).isClose = false →
      (analyze_tensor_differences actual expected).zeroCounts
        = some ((actual.filter (fun v => decide (v = 0))).length,
            (expected.filter (fun v => decide (v = 0))).length)) ∧
    (analyze_tensor_differences actual expected).nanCount = none := by
  have habs_ne : absDiffs actual expected ≠ [] := by
    intro hcon
    have := length_absDiffs hlen
    rw [hcon] at this
    exact hne (List.eq_nil_of_length_eq_zero this.symm)
  have hmax_mem : maxAbsDiff actual expected ∈ absDiffs actual expected :=
    foldr_max_mem absDiffs_nonneg habs_ne
  have hloc : argmaxAbsDiff actual expected < (absDiffs actual expected).length :=
    List.findIdx_lt_length_of_exists ⟨maxAbsDiff actual expected, hmax_mem,
      decide_eq_true (le_refl _)⟩
  simp only [analyze_tensor_differences]
  refine ⟨allclose_iff (1/2) (1/2) actual expected hlen, ⟨?_, ?_⟩, ?_, ?_, ?_, ?_⟩
  · rwa [length_absDiffs hlen] at hloc
  · rw [List.getD_eq_getElem _ 0 hloc]
    refine le_antisymm (foldr_max_le (List.getElem_mem hloc)) ?_
    have hloc2 : (absDiffs actual expected).findIdx
        (fun v => decide (maxAbsDiff actual expected ≤ v))
          < (absDiffs actual expected).length := hloc
    have hfound := findIdx_get_pred hloc2
    exact of_decide_eq_true hfound
  · intro i h
    have h₂ : i < expected.length := hlen ▸ h
    have hz : i < (absDiffs actual expected).length := by
      rw [length_absDiffs hlen]
      exact h
    have hmem : (absDiffs actual expected).getD i 0 ∈ absDiffs actual expected := by
      rw [List.getD_eq_getElem _ 0 hz]
      exact List.getElem_mem hz
    have hle := foldr_max_le hmem
    rw [absDiffs_getD h h₂] at hle
    exact hle
  · intro hclose
    rw [if_pos hclose]
  · intro hfail
    rw [if_neg (by rw [hfail]; exact Bool.false_ne_true)]
  · have hnan : (actual.filter isnanQ).length = 0 := by
      simp [isnanQ]
    rw [hnan]
    simp

/-- Witness for the amended C8 at `actual = [0, 1]`, `expected = [0, 2]`. -/
theorem analyze_tensor_differences_spec_witness :
    (analyze_tensor_differences [0, 1] [0, 2]).nanCount = none :=
  (analyze_tensor_differences_spec [0, 1] [0, 2] rfl
    (List.cons_ne_nil 0 [1])).2.2.2.2.2

/-- C8 counterexample: on the exactly-equal pair `[0]`, `[0]` the comparison
succeeds and neither the zero counts (here `1` on each side) nor the NaN
count is reported — the claim that they are reported on every comparison
fails. -/
theorem analyze_zero_counts_not_always_reported :
    (analyze_tensor_differences [0] [0]).isClose = true ∧
    (analyze_tensor_differences [0] [0]).zeroCounts = none ∧
    (analyze_tensor_differences [0] [0]).nanCount = none := by
  have hclose : allclose (1/2) (1/2) [0] [0] = true := by
    norm_num [allclose]
  refine ⟨hclose, ?_, ?_⟩
  · simp only [analyze_tensor_differences]
    rw [if_pos hclose]
  · simp only [analyze_tensor_differences]
    rw [if_pos hclose]

theorem length_sweepFrom : ∀ (l : List ConfigOutcome) (idx : ℕ),
    (sweepFrom idx l).length = l.length := by
  intro l
  induction l with
  | nil => intro idx; rfl
  | cons o rest ih =>
    intro idx
    simp only [sweepFrom, List.length_cons, ih]

theorem sweepFrom_getD : ∀ (l : List ConfigOutcome) (idx i : ℕ), i < l.length →
    (sweepFrom idx l).getD i (0, false, false, false)
      = runConfig (idx + i) (l.getD i .exn) := by
  intro l
  induction l with
  | nil => intro idx i h; simp at h
  | cons o rest ih =>
    intro idx i h
    cases i with
    | zero => rfl
    | succ n =>
      show (sweepFrom (idx + 1) rest).getD n (0, false, false, false) = _
      rw [ih (idx + 1) n (by simpa using h), List.getD_cons_succ]
      have harith : idx + 1 + n = idx + (n + 1) := by omega
      rw [harith]

theorem sweepFrom_all_iff : ∀ (l : List ConfigOutcome) (idx : ℕ),
    ((sweepFrom idx l).all (fun r => r.2.1) = true ↔
      ∀ o ∈ l, ∃ f b, o = ConfigOutcome.ok f b ∧ f = true ∧ b = true) := by
  intro l
  induction l with
  | nil => intro idx; simp [sweepFrom]
  | cons o rest ih =>
    intro idx
    simp only [sweepFrom, List.all_cons, Bool.and_eq_true, List.mem_cons]
    constructor
    · rintro ⟨h1, h2⟩ o₂ ho₂
      rcases ho₂ with rfl | ho₂
      · cases o₂ with
        | ok f b =>
          refine ⟨f, b, rfl, ?_⟩
          simpa [runConfig] using h1
        | exn => exact absurd h1 Bool.false_ne_true
      · exact (ih (idx + 1)).mp h2 o₂ ho₂
    · intro hall
      constructor
      · rcases hall o (Or.inl rfl) with ⟨f, b, rfl, hf, hb⟩
        simp [runConfig, hf, hb]
      · exact (ih (idx + 1)).mpr (fun o₂ ho₂ => hall o₂ (Or.inr ho₂))

/-- C9: in the multi-configuration sweep, an exception in one configuration
is caught and recorded as `(idx+1, False, False, False)`; every
configuration is recorded from its own outcome at its own position (so later
configurations are still tested); and the sweep returns True iff every
configuration completed with both the forward and the backward comparison
passing. -/
theorem sweep_exception_isolation (outcomes : List ConfigOutcome) :
    (sweepFrom 0 outcomes).length = outcomes.length ∧
    (∀ i, i < outcomes.length →
      (sweepFrom 0 outcomes).getD i (0, false, false, false)
        = runConfig i (outcomes.getD i .exn)) ∧
    (∀ i, i < outcomes.length → outcomes.getD i .exn = .exn →
      (sweepFrom 0 outcomes).getD i (0, false, false, false)
        = (i + 1, false, false, false)) ∧
    (test_multiple_deepseek_configs outcomes = true ↔
      ∀ o ∈ outcomes, ∃ f b, o = ConfigOutcome.ok f b ∧ f = true ∧ b = true) := by
  refine ⟨length_sweepFrom outcomes 0, ?_, ?_, sweepFrom_all_iff outcomes 0⟩
  · intro i h
    have := sweepFrom_getD outcomes 0 i h
    rwa [Nat.zero_add] at this
  · intro i h hexn
    have := sweepFrom_getD outcomes 0 i h
    rw [Nat.zero_add, hexn] at this
    exact this

/-- Witness for C9 with outcomes `[ok true true, exn, ok true false]`:
the exception at position 1 is recorded as `(2, False, False, False)`. -/
theorem sweep_exception_isolation_witness :
    (sweepFrom 0 [ConfigOutcome.ok true true, ConfigOutcome.exn,
        ConfigOutcome.ok true false]).getD 1 (0, false, false, false)
      = (2, false, false, false) :=
  (sweep_exception_isolation [ConfigOutcome.ok true true, ConfigOutcome.exn,
    ConfigOutcome.ok true false]).2.2.1 1 (by decide) (by decide)

end FastDebug
